import Mathlib

/-!
Verification of the label reconciliation core of `gh_labels.py`
(GhLabelSync): configuration parsing (`_parse_colors`, `_parse_labels`),
color resolution (`_resolve_color`, `RE_VALID_COLOR`), rename-aware
matching (`_find_label`) and the sync decision loop (`sync`).

The embedding is shallow: raw YAML scalars are modelled by `RVal`
(a string or some non-string value), Python exceptions by an error
enumeration carried in `Except`, and the calls issued to the GitHub
Api collaborator by an `ApiCall` trace.  Python's `str.lower` is
modelled for the ASCII range (`strLower`), which covers every string
handled by the claims.
-/

/-- A raw YAML scalar as seen by the Python code: either a string or
some value of a different runtime type. -/
inductive RVal where
  | str (s : String)
  | other
deriving DecidableEq

/-- The error taxonomy of configuration building: `invalidFieldType`
models the `TypeError` of `_validate_str` (and of `re.match` on a
non-string), the rest model the `ValueError`/`KeyError` sites of
`_parse_colors`, `_parse_labels` and `_resolve_color`. -/
inductive CfgError where
  | invalidFieldType
  | invalidColorFormat
  | duplicateColorName
  | duplicateLabelName
  | invalidDescriptionType
  | unknownColorAlias
deriving DecidableEq

/-- ASCII model of `str.lower` on a single character. -/
def lowerChar (c : Char) : Char :=
  if 'A' ≤ c ∧ c ≤ 'Z' then Char.ofNat (c.toNat + 32) else c

/-- ASCII model of Python's `str.lower`. -/
def strLower (s : String) : String := ⟨s.data.map lowerChar⟩

/-- Character class `[a-fA-F0-9]` of `RE_VALID_COLOR`. -/
def isHexChar (c : Char) : Bool :=
  decide (('0' ≤ c ∧ c ≤ '9') ∨ ('a' ≤ c ∧ c ≤ 'f') ∨ ('A' ≤ c ∧ c ≤ 'F'))

/-- `RE_VALID_COLOR.match(s) is not None`: `re.match` anchors at the
start only, so the pattern `#[a-fA-F0-9]{6}` accepts any string that
BEGINS with `#` followed by six hex digits (trailing characters are
not examined). -/
def validColor (s : String) : Bool :=
  match s.data with
  | '#' :: c1 :: c2 :: c3 :: c4 :: c5 :: c6 :: _ =>
      isHexChar c1 && isHexChar c2 && isHexChar c3 && isHexChar c4 &&
      isHexChar c5 && isHexChar c6
  | _ => false

/-- Python `color[1:]` (character-wise slice). -/
def strDrop1 (s : String) : String := ⟨s.data.drop 1⟩

/-- `GhLabelSync._validate_str`. -/
def validateStr : RVal → Except CfgError String
  | .str s => .ok s
  | .other => .error .invalidFieldType

/-- `GhLabelSync._validate_color`: string check, then the regex check. -/
def validateColor (v : RVal) : Except CfgError String := do
  let s ← validateStr v
  if validColor s then .ok s else .error .invalidColorFormat

/-- `GhLabelSync._parse_colors` loop body, with the accumulated table
(`self.colors`, insertion ordered).  The stored value is `color[1:]`. -/
def parseColorsAux : List (RVal × RVal) → List (String × String) →
    Except CfgError (List (String × String))
  | [], acc => .ok acc
  | (n, cv) :: rest, acc => do
      let c ← validateColor cv
      let nm ← validateStr n
      if nm ∈ acc.map Prod.fst then .error .duplicateColorName
      else parseColorsAux rest (acc ++ [(nm, strDrop1 c)])

/-- `GhLabelSync._parse_colors`. -/
def parseColors (raw : List (RVal × RVal)) : Except CfgError (List (String × String)) :=
  parseColorsAux raw []

/-- `GhLabelSync._resolve_color`: a value matching `RE_VALID_COLOR` is
returned unchanged (leading `#` kept); otherwise it is looked up in
`self.colors` (`KeyError` -> `unknownColorAlias`; a non-string raises
`TypeError` inside `re.match`). -/
def resolveColor (table : List (String × String)) (v : RVal) : Except CfgError String :=
  match v with
  | .other => .error .invalidFieldType
  | .str c =>
      if validColor c then .ok c
      else
        match table.lookup c with
        | some col => .ok col
        | none => .error .unknownColorAlias

/-- One raw entry of the `labels` list of the configuration. -/
structure RawLabel where
  name : RVal
  color : RVal
  renamed : Option RVal
  description : Option RVal
deriving DecidableEq

/-- A validated label entry (one element of `self.labels`): `color` is
stored post-resolution, `renamed` and `description` as given. -/
structure LabelSpec where
  name : String
  renamed : Option String
  color : String
  description : Option String
deriving DecidableEq

/-- `value.get('description', '')`. -/
def LabelSpec.descr (s : LabelSpec) : String := s.description.getD ""

/-- `value.get('renamed', name)`: the name a live label is matched
against. -/
def LabelSpec.matchName (s : LabelSpec) : String := s.renamed.getD s.name

/-- `GhLabelSync._parse_labels` label loop, carrying the `seen` set of
lower-cased names.  Per entry the checks run in source order: name
string check, color resolution, renamed string check, description
string check, duplicate check. -/
def parseLabels (table : List (String × String)) :
    List RawLabel → List String → Except CfgError (List LabelSpec)
  | [], _ => .ok []
  | e :: rest, seen => do
      let name ← validateStr e.name
      let color ← resolveColor table e.color
      let renamed ← match e.renamed with
        | some r => do
            let rr ← validateStr r
            pure (some rr)
        | none => pure none
      let descr ← match e.description with
        | none => pure (none : Option String)
        | some (.str s) => pure (some s)
        | some .other => Except.error CfgError.invalidDescriptionType
      if strLower name ∈ seen then .error .duplicateLabelName
      else do
        let specs ← parseLabels table rest (strLower name :: seen)
        .ok (⟨name, renamed, color, descr⟩ :: specs)

/-- `GhLabelSync._parse_labels` ignore loop: each entry is validated as
a string and stored lower-cased (set membership is all that is ever
used of the result). -/
def parseIgnores : List RVal → Except CfgError (List String)
  | [] => .ok []
  | v :: rest => do
      let s ← validateStr v
      let r ← parseIgnores rest
      .ok (strLower s :: r)

/-- The validated configuration produced by `GhLabelSync.__init__`. -/
structure BuildResult where
  colors : List (String × String)
  labels : List LabelSpec
  ignores : List String
deriving DecidableEq

/-- `GhLabelSync.__init__` after loading the YAML: `_parse_colors`
then `_parse_labels` (labels, then ignores); the first error aborts
the build. -/
def buildConfig (colorsRaw : List (RVal × RVal)) (labelsRaw : List RawLabel)
    (ignoresRaw : List RVal) : Except CfgError BuildResult := do
  let table ← parseColors colorsRaw
  let specs ← parseLabels table labelsRaw []
  let igns ← parseIgnores ignoresRaw
  .ok ⟨table, specs, igns⟩

/-- A label as returned by `Api.get_labels`. -/
structure RemoteLabel where
  name : String
  color : String
  description : String
deriving DecidableEq

/-- The `LabelEdit` namedtuple. -/
structure LabelEdit where
  old : String
  new : String
  color : String
  description : String
  modified : Bool
deriving DecidableEq

/-- `GhLabelSync._find_label`: first spec whose match name equals the
live label name case-insensitively wins; `modified` records the
(source-faithful, including its redundant name-equality conjunct)
color/description comparison. -/
def findLabel (labels : List LabelSpec) (label color descr : String) : Option LabelEdit :=
  match labels with
  | [] => none
  | s :: rest =>
      if strLower label = strLower s.matchName then
        some ⟨s.matchName, s.name, s.color, s.descr,
          (strLower label == strLower s.matchName) &&
            (!(strLower color == strLower s.color) || !(descr == s.descr))⟩
      else findLabel rest label color descr

/-- A call issued to the `Api` collaborator (`create_label`,
`edit_label`, `delete_label`). -/
inductive ApiCall where
  | create (name color description : String)
  | edit (old new color description : String)
  | delete (name : String)
deriving DecidableEq

/-- The per-label outcome reported by the `sync` loop's print
statements. -/
inductive Outcome where
  | updated
  | skipped
  | deleted
deriving DecidableEq

/-- The state of a `GhLabelSync` instance as consumed by `sync`. -/
structure SyncState where
  labels : List LabelSpec
  ignores : List String
  delete : Bool
  debug : Bool
deriving DecidableEq

/-- The body of the first `sync` loop for one live label: the calls
issued (suppressed under debug), the reported outcome, and the names
added to the `updated` set. -/
def processLabel (st : SyncState) (L : RemoteLabel) :
    List ApiCall × Outcome × List String :=
  match findLabel st.labels L.name L.color L.description with
  | some e =>
      if e.modified then
        ((if st.debug then [] else [.edit e.old e.new e.color e.description]),
         .updated, [e.old, e.new])
      else ([], .skipped, [L.name])
  | none =>
      if st.delete ∧ strLower L.name ∉ st.ignores then
        ((if st.debug then [] else [.delete L.name]), .deleted, [L.name])
      else ([], .skipped, [L.name])

/-- Calls issued by the first `sync` loop, in live-label order. -/
def phase1ApiCalls (st : SyncState) (live : List RemoteLabel) : List ApiCall :=
  (live.map (fun L => (processLabel st L).1)).flatten

/-- Outcomes of the first `sync` loop, in live-label order. -/
def syncOutcomes (st : SyncState) (live : List RemoteLabel) : List Outcome :=
  live.map (fun L => (processLabel st L).2.1)

/-- The `updated` set after the first `sync` loop (as an insertion
list; only membership is consumed). -/
def syncUpdated (st : SyncState) (live : List RemoteLabel) : List String :=
  (live.map (fun L => (processLabel st L).2.2)).flatten

/-- Calls issued by the second `sync` loop: one create per spec whose
exact name is not in `updated`, in spec order (suppressed under
debug). -/
def createApiCalls (st : SyncState) (live : List RemoteLabel) : List ApiCall :=
  if st.debug then []
  else
    (st.labels.filter (fun v => decide (v.name ∉ syncUpdated st live))).map
      (fun v => .create v.name v.color v.descr)

/-- All calls issued by one `sync()` run, in order. -/
def syncApiCalls (st : SyncState) (live : List RemoteLabel) : List ApiCall :=
  phase1ApiCalls st live ++ createApiCalls st live

/-- Replace the first label whose name matches case-insensitively
(model of the remote's `PATCH /labels/:old`; GitHub resolves label
names case-insensitively). -/
def editFirst (R : List RemoteLabel) (old new color descr : String) : List RemoteLabel :=
  match R with
  | [] => []
  | L :: T =>
      if strLower L.name = strLower old then ⟨new, color, descr⟩ :: T
      else L :: editFirst T old new color descr

/-- Remove the first label whose name matches case-insensitively
(model of the remote's `DELETE /labels/:name`). -/
def deleteFirst (R : List RemoteLabel) (n : String) : List RemoteLabel :=
  match R with
  | [] => []
  | L :: T =>
      if strLower L.name = strLower n then T
      else L :: deleteFirst T n

/-- Effect of one issued call on the remote label set. -/
def applyApiCall (R : List RemoteLabel) : ApiCall → List RemoteLabel
  | .create n c d => R ++ [⟨n, c, d⟩]
  | .edit o nn c d => editFirst R o nn c d
  | .delete n => deleteFirst R n

/-- Effect of a call sequence on the remote label set. -/
def applyApiCalls (R : List RemoteLabel) (as : List ApiCall) : List RemoteLabel :=
  as.foldl applyApiCall R

/-- The remote label set after one `sync()` run. -/
def remoteAfter (st : SyncState) (live : List RemoteLabel) : List RemoteLabel :=
  applyApiCalls live (syncApiCalls st live)

/-- Whole-run model: build the configuration, then sync; a build error
aborts before any call is issued. -/
def runAll (colorsRaw : List (RVal × RVal)) (labelsRaw : List RawLabel)
    (ignoresRaw : List RVal) (delete debug : Bool) (live : List RemoteLabel) :
    Except CfgError (List ApiCall) := do
  let b ← buildConfig colorsRaw labelsRaw ignoresRaw
  .ok (syncApiCalls ⟨b.labels, b.ignores, delete, debug⟩ live)

/-- Auxiliary (proof device): the net effect of processing one live
label in the first `sync` loop on the remote state. -/
def syncStep (st : SyncState) (L : RemoteLabel) : Option RemoteLabel :=
  match findLabel st.labels L.name L.color L.description with
  | some e => if e.modified then some ⟨e.new, e.color, e.description⟩ else some L
  | none => if st.delete ∧ strLower L.name ∉ st.ignores then none else some L

/-- Auxiliary (proof device): the lower-cased remote name a call is
addressed to (`none` for a create, which targets no existing label). -/
def apiCallKey : ApiCall → Option String
  | .create _ _ _ => none
  | .edit o _ _ _ => some (strLower o)
  | .delete n => some (strLower n)

/-- Auxiliary (proof device): a raw label entry passes every per-entry
check of `_parse_labels` (name is a string, color resolves, renamed
and description are strings when present). -/
def entryOk (table : List (String × String)) (e : RawLabel) : Bool :=
  (match e.name with | .str _ => true | .other => false) &&
  (match resolveColor table e.color with | .ok _ => true | .error _ => false) &&
  (match e.renamed with | some (.str _) => true | none => true | some .other => false) &&
  (match e.description with | some (.str _) => true | none => true | some .other => false)

/-- Auxiliary (proof device): the name of a raw label entry whose name
field is a string (junk otherwise). -/
def rawName (e : RawLabel) : String :=
  match e.name with
  | .str s => s
  | .other => ""

/-! ## Basic lemmas about color validation and resolution -/

theorem validColor_data {c : String} (h : validColor c = true) :
    ∃ c1 c2 c3 c4 c5 c6 t, c.data = '#' :: c1 :: c2 :: c3 :: c4 :: c5 :: c6 :: t := by
  unfold validColor at h
  split at h
  · next c1 c2 c3 c4 c5 c6 t heq => exact ⟨c1, c2, c3, c4, c5, c6, t, heq⟩
  · exact absurd h (by simp)

theorem hash_append_of_data {t : List Char} {c : String} (h : c.data = '#' :: t) :
    "#" ++ strDrop1 c = c := by
  obtain ⟨l⟩ := c
  have h' : l = '#' :: t := h
  subst h'
  rfl

theorem validColor_hash_append {c : String} (h : validColor c = true) :
    validColor ("#" ++ strDrop1 c) = true := by
  obtain ⟨c1, c2, c3, c4, c5, c6, t, heq⟩ := validColor_data h
  rw [hash_append_of_data heq]
  exact h

theorem validateColor_ok {v : RVal} {c : String} (h : validateColor v = .ok c) :
    v = .str c ∧ validColor c = true := by
  cases v with
  | other => simp [validateColor, validateStr, Except.bind, bind] at h
  | str s =>
      by_cases hv : validColor s = true
      · simp [validateColor, validateStr, Except.bind, bind, hv] at h
        exact ⟨by rw [h], by rw [← h]; exact hv⟩
      · simp [validateColor, validateStr, Except.bind, bind, hv] at h

/-! ## C3: literal color resolution -/

/-- C3 counterexample: resolving the literal `"#1d76db"` returns it
with the `#` KEPT (not `"1d76db"` as the claim states), and the bare
literal `"1d76db"` is not accepted as a literal at all: it is looked
up as an alias and fails with `UnknownColorAlias` when absent. -/
theorem resolve_hash_literal_not_stripped :
    resolveColor [] (.str "#1d76db") = .ok "#1d76db" ∧
    ("#1d76db" : String) ≠ "1d76db" ∧
    resolveColor [] (.str "1d76db") = .error .unknownColorAlias :=
  ⟨rfl, by decide, rfl⟩

/-- C3 amended: color resolution on a string matching the color
pattern (a leading `#` — which is required, not optional — followed by
six hex digits) returns it unchanged, leading `#` included, without
consulting the alias table (the result is the same for every table). -/
theorem literal_color_resolution_keeps_hash (table : List (String × String))
    (s : String) (h : validColor s = true) :
    resolveColor table (.str s) = .ok s := by
  simp [resolveColor, h]

/-- Witness for `literal_color_resolution_keeps_hash` at `"#1d76db"`
with a populated alias table. -/
theorem literal_color_resolution_keeps_hash_witness :
    resolveColor [("#1d76db", "0000ff")] (.str "#1d76db") = .ok "#1d76db" :=
  literal_color_resolution_keeps_hash [("#1d76db", "0000ff")] "#1d76db" (by decide)

/-! ## C4: color table build invariant -/

/-- C4 counterexample: the regex check is a prefix match, so the alias
value `"#1d76dbzz"` is accepted and stored as `"1d76dbzz"`, which is
not a 6-hex-digit color code (it has 8 characters), and no
`InvalidColorFormat` error is raised. -/
theorem color_table_accepts_overlong_value :
    parseColors [(.str "x", .str "#1d76dbzz")] = .ok [("x", "1d76dbzz")] ∧
    ("1d76dbzz" : String).data.length ≠ 6 :=
  ⟨rfl, by decide⟩

theorem parseColorsAux_ok_invariant {raw : List (RVal × RVal)}
    {acc t : List (String × String)}
    (h : parseColorsAux raw acc = .ok t)
    (hacc : ∀ p ∈ acc, validColor ("#" ++ p.2) = true) :
    ∀ p ∈ t, validColor ("#" ++ p.2) = true := by
  induction raw generalizing acc with
  | nil =>
      simp [parseColorsAux] at h
      exact h ▸ hacc
  | cons hd rest ih =>
      obtain ⟨n, cv⟩ := hd
      cases hc : validateColor cv with
      | error err => simp [parseColorsAux, hc, Except.bind, bind] at h
      | ok c =>
          cases hn : validateStr n with
          | error err => simp [parseColorsAux, hc, hn, Except.bind, bind] at h
          | ok nm =>
              by_cases hmem : nm ∈ acc.map Prod.fst
              · simp [parseColorsAux, hc, hn, hmem, Except.bind, bind] at h
              · simp only [parseColorsAux, hc, hn, Except.bind, bind, if_neg hmem] at h
                refine ih h ?_
                intro p hp
                rcases List.mem_append.mp hp with hp | hp
                · exact hacc p hp
                · rcases List.mem_singleton.mp hp with rfl
                  exact validColor_hash_append (validateColor_ok hc).2

/-- C4 amended: every value stored in an accepted color table BEGINS
with six hex digits (re-prefixing the stripped `#` yields a string
matching the color pattern); a (string) alias value that does not
match the pattern as a prefix is rejected with `InvalidColorFormat`.
(The original claim's "exactly six hex digits" fails because the
regex match is unanchored at the end.) -/
theorem color_table_values_start_with_six_hex :
    (∀ (raw : List (RVal × RVal)) (t : List (String × String)),
      parseColors raw = .ok t → ∀ p ∈ t, validColor ("#" ++ p.2) = true) ∧
    (∀ (n : RVal) (c : String) (rest : List (RVal × RVal)),
      validColor c = false →
      parseColors ((n, .str c) :: rest) = .error .invalidColorFormat) := by
  constructor
  · intro raw t h p hp
    exact parseColorsAux_ok_invariant h (by simp) p hp
  · intro n c rest hc
    simp [parseColors, parseColorsAux, validateColor, validateStr, hc, Except.bind, bind]

/-- Witness for `color_table_values_start_with_six_hex` on a concrete
table and a concrete rejected value. -/
theorem color_table_values_start_with_six_hex_witness :
    validColor ("#" ++ ("1d76db" : String)) = true ∧
    parseColors [(.str "x", .str "nothex")] = .error .invalidColorFormat :=
  ⟨color_table_values_start_with_six_hex.1 [(.str "blue", .str "#1d76db")]
      [("blue", "1d76db")] rfl ("blue", "1d76db") (by simp),
   color_table_values_start_with_six_hex.2 (.str "x") "nothex" [] (by decide)⟩

/-! ## C6: label name validation -/

/-- C6 counterexample: a label entry whose name is the EMPTY string is
accepted by the configuration build (`_validate_str` only checks
`isinstance(name, str)`), producing a LabelSpec collection — the build
does not fail with `InvalidFieldType` as the claim states. -/
theorem empty_name_accepted :
    buildConfig [] [⟨.str "", .str "#aaaaaa", none, none⟩] [] =
      .ok ⟨[], [⟨"", none, "#aaaaaa", none⟩], []⟩ := rfl

/-- C6 amended: the build rejects a label entry whose name is not a
string with `InvalidFieldType` (before looking at any other field of
that entry), but a name that IS a string is accepted even when empty:
the non-empty check of the claim is not performed. -/
theorem nonstring_name_rejected :
    (∀ (table : List (String × String)) (e : RawLabel) (rest : List RawLabel)
       (seen : List String), e.name = .other →
       parseLabels table (e :: rest) seen = .error .invalidFieldType) ∧
    buildConfig [] [⟨.str "", .str "#bbbbbb", none, none⟩] [] =
      .ok ⟨[], [⟨"", none, "#bbbbbb", none⟩], []⟩ := by
  constructor
  · intro table e rest seen h
    simp [parseLabels, h, validateStr, Except.bind, bind]
  · rfl

/-- Witness for `nonstring_name_rejected` at a concrete non-string
name entry. -/
theorem nonstring_name_rejected_witness :
    parseLabels [] [⟨.other, .str "#aaaaaa", none, none⟩] [] =
      .error .invalidFieldType :=
  nonstring_name_rejected.1 [] ⟨.other, .str "#aaaaaa", none, none⟩ [] [] rfl

/-! ## C7: duplicate label names -/

/-- C7 counterexample: a configuration whose two label entries have
case-insensitively equal names `"a"`/`"A"` but whose FIRST entry
carries an unresolvable color fails with `UnknownColorAlias`, not with
`DuplicateLabelName`: the per-entry validations of earlier entries run
before the duplicate check of later ones. -/
theorem duplicate_name_masked_by_color_error :
    buildConfig [] [⟨.str "a", .str "bogus", none, none⟩,
      ⟨.str "A", .str "#aaaaaa", none, none⟩] [] = .error .unknownColorAlias ∧
    strLower "a" = strLower "A" ∧
    CfgError.unknownColorAlias ≠ CfgError.duplicateLabelName :=
  ⟨rfl, by decide, by decide⟩

theorem entryOk_spec {table : List (String × String)} {e : RawLabel}
    (h : entryOk table e = true) :
    (∃ s, e.name = .str s) ∧ (∃ c, resolveColor table e.color = .ok c) ∧
    (e.renamed = none ∨ ∃ r, e.renamed = some (.str r)) ∧
    (e.description = none ∨ ∃ d, e.description = some (.str d)) := by
  simp only [entryOk, Bool.and_eq_true] at h
  obtain ⟨⟨⟨h1, h2⟩, h3⟩, h4⟩ := h
  refine ⟨?_, ?_, ?_, ?_⟩
  · cases hn : e.name with
    | str s => exact ⟨s, rfl⟩
    | other => rw [hn] at h1; exact absurd h1 (by simp)
  · cases hc : resolveColor table e.color with
    | ok c => exact ⟨c, rfl⟩
    | error err => rw [hc] at h2; exact absurd h2 (by simp)
  · cases hr : e.renamed with
    | none => exact Or.inl rfl
    | some rv =>
        cases rv with
        | str r => exact Or.inr ⟨r, rfl⟩
        | other => rw [hr] at h3; exact absurd h3 (by simp)
  · cases hd : e.description with
    | none => exact Or.inl rfl
    | some dv =>
        cases dv with
        | str d => exact Or.inr ⟨d, rfl⟩
        | other => rw [hd] at h4; exact absurd h4 (by simp)

theorem parseLabels_duplicate {table : List (String × String)}
    {l : List RawLabel} {seen : List String}
    (hok : ∀ e ∈ l, entryOk table e = true)
    (hdup : ¬ (l.map (fun e => strLower (rawName e))).Nodup ∨
      ∃ e ∈ l, strLower (rawName e) ∈ seen) :
    parseLabels table l seen = .error .duplicateLabelName := by
  induction l generalizing seen with
  | nil =>
      rcases hdup with hdup | ⟨e, he, _⟩
      · exact absurd List.nodup_nil hdup
      · exact absurd he (List.not_mem_nil e)
  | cons e rest ih =>
      obtain ⟨⟨s, hs⟩, ⟨c, hc⟩, hr, hd⟩ := entryOk_spec (hok e (by simp))
      have hraw : rawName e = s := by simp [rawName, hs]
      by_cases hmem : strLower s ∈ seen
      · rcases hr with hr | ⟨r, hr⟩ <;> rcases hd with hd | ⟨d, hd⟩ <;>
          simp [parseLabels, hs, hc, hr, hd, validateStr, hmem,
            Except.bind, bind, pure, Except.pure]
      · have hnext : ¬ (rest.map (fun e => strLower (rawName e))).Nodup ∨
            ∃ e' ∈ rest, strLower (rawName e') ∈ strLower s :: seen := by
          rcases hdup with hdup | ⟨e', he', hseen⟩
          · rw [List.map_cons, List.nodup_cons] at hdup
            push_neg at hdup
            by_cases hin : strLower (rawName e) ∈ rest.map (fun e => strLower (rawName e))
            · rcases List.mem_map.mp hin with ⟨e', he', heq⟩
              exact Or.inr ⟨e', he', by rw [heq, hraw]; exact List.mem_cons_self _ _⟩
            · exact Or.inl (hdup hin)
          · rcases List.mem_cons.mp he' with rfl | he'
            · rw [hraw] at hseen; exact absurd hseen hmem
            · exact Or.inr ⟨e', he', List.mem_cons_of_mem _ hseen⟩
        have herr := ih (fun e' he' => hok e' (List.mem_cons_of_mem _ he')) hnext
        rcases hr with hr | ⟨r, hr⟩ <;> rcases hd with hd | ⟨d, hd⟩ <;>
          simp [parseLabels, hs, hc, hr, hd, validateStr, hmem, herr,
            Except.bind, bind, pure, Except.pure]

/-- C7 amended: a configuration with two case-insensitively equal
label names is always rejected at build time, before any remote call
(the run never reaches `sync`); the error is `DuplicateLabelName`
provided every entry passes its own per-entry validation (otherwise an
earlier per-entry error — e.g. an unknown color alias — surfaces
first). -/
theorem duplicate_name_rejected_before_any_call
    (colorsRaw : List (RVal × RVal)) (table : List (String × String))
    (labelsRaw : List RawLabel) (ignoresRaw : List RVal)
    (del dbg : Bool) (live : List RemoteLabel)
    (hc : parseColors colorsRaw = .ok table)
    (hok : ∀ e ∈ labelsRaw, entryOk table e = true)
    (hdup : ¬ (labelsRaw.map (fun e => strLower (rawName e))).Nodup) :
    runAll colorsRaw labelsRaw ignoresRaw del dbg live =
      .error .duplicateLabelName := by
  have herr := @parseLabels_duplicate table labelsRaw [] hok (Or.inl hdup)
  simp [runAll, buildConfig, hc, herr, Except.bind, bind]

/-- Witness for `duplicate_name_rejected_before_any_call` on a
two-entry configuration with names `"a"` and `"A"`. -/
theorem duplicate_name_rejected_before_any_call_witness :
    runAll [] [⟨.str "a", .str "#aaaaaa", none, none⟩,
      ⟨.str "A", .str "#bbbbbb", none, none⟩] [] true false [] =
      .error .duplicateLabelName :=
  duplicate_name_rejected_before_any_call [] [] _ [] true false []
    rfl (by decide) (by decide)

/-! ## Lemmas about `findLabel` and the sync loop -/

theorem findLabel_old_lower {labels : List LabelSpec} {n c d : String} {e : LabelEdit}
    (h : findLabel labels n c d = some e) : strLower n = strLower e.old := by
  induction labels with
  | nil => simp [findLabel] at h
  | cons s rest ih =>
      by_cases hm : strLower n = strLower s.matchName
      · simp only [findLabel, if_pos hm] at h
        injection h with h
        subst h
        exact hm
      · simp only [findLabel, if_neg hm] at h
        exact ih h

theorem findLabel_spec {labels : List LabelSpec} {n c d : String} {e : LabelEdit}
    (h : findLabel labels n c d = some e) :
    ∃ s ∈ labels, e = ⟨s.matchName, s.name, s.color, s.descr,
      (strLower n == strLower s.matchName) &&
        (!(strLower c == strLower s.color) || !(d == s.descr))⟩ := by
  induction labels with
  | nil => simp [findLabel] at h
  | cons s rest ih =>
      by_cases hm : strLower n = strLower s.matchName
      · simp only [findLabel, if_pos hm] at h
        injection h with h
        exact ⟨s, by simp, h.symm⟩
      · simp only [findLabel, if_neg hm] at h
        obtain ⟨t, ht, he⟩ := ih h
        exact ⟨t, List.mem_cons_of_mem _ ht, he⟩

theorem findLabel_none {labels : List LabelSpec} {n c d : String}
    (h : findLabel labels n c d = none) :
    ∀ s ∈ labels, strLower n ≠ strLower s.matchName := by
  induction labels with
  | nil => simp
  | cons s rest ih =>
      by_cases hm : strLower n = strLower s.matchName
      · simp only [findLabel, if_pos hm] at h
        exact absurd h (by simp)
      · simp only [findLabel, if_neg hm] at h
        intro t ht
        rcases List.mem_cons.mp ht with rfl | ht'
        · exact hm
        · exact ih h t ht'

theorem findLabel_first_nodup {labels : List LabelSpec} {S : LabelSpec} {n c d : String}
    (hR : ∀ s ∈ labels, s.renamed = none)
    (hN : (labels.map (fun s => strLower s.name)).Nodup)
    (hS : S ∈ labels) (hn : strLower n = strLower S.name) :
    findLabel labels n c d = some ⟨S.name, S.name, S.color, S.descr,
      (strLower n == strLower S.name) &&
        (!(strLower c == strLower S.color) || !(d == S.descr))⟩ := by
  induction labels with
  | nil => cases hS
  | cons t rest ih =>
      have ht : t.matchName = t.name := by
        simp [LabelSpec.matchName, hR t (List.mem_cons_self t rest)]
      rw [List.map_cons, List.nodup_cons] at hN
      rcases List.mem_cons.mp hS with rfl | hS'
      · simp only [findLabel, ht, if_pos hn]
      · have hmem : strLower S.name ∈ rest.map (fun s => strLower s.name) :=
          List.mem_map_of_mem _ hS'
        have hne : strLower n ≠ strLower t.name := by
          intro hEq
          have h2 : strLower t.name ∈ rest.map (fun s => strLower s.name) := by
            rw [← hEq, hn]
            exact hmem
          exact hN.1 h2
        simp only [findLabel, ht, if_neg hne]
        exact ih (fun s hs => hR s (List.mem_cons_of_mem _ hs)) hN.2 hS'

theorem phase1_cons (st : SyncState) (L : RemoteLabel) (T : List RemoteLabel) :
    phase1ApiCalls st (L :: T) = (processLabel st L).1 ++ phase1ApiCalls st T := by
  simp [phase1ApiCalls]

theorem syncUpdated_cons (st : SyncState) (L : RemoteLabel) (T : List RemoteLabel) :
    syncUpdated st (L :: T) = (processLabel st L).2.2 ++ syncUpdated st T := by
  simp [syncUpdated]

theorem mem_syncUpdated_of {st : SyncState} {L : RemoteLabel} {R : List RemoteLabel}
    {x : String} (hL : L ∈ R) (hx : x ∈ (processLabel st L).2.2) :
    x ∈ syncUpdated st R := by
  simp only [syncUpdated, List.mem_flatten]
  exact ⟨_, List.mem_map_of_mem _ hL, hx⟩

theorem processLabel_calls_shape (st : SyncState) (L : RemoteLabel) :
    (processLabel st L).1 = [] ∨
    (∃ e, (processLabel st L).1 = [.edit e.old e.new e.color e.description] ∧
      findLabel st.labels L.name L.color L.description = some e ∧
      e.modified = true) ∨
    (processLabel st L).1 = [.delete L.name] := by
  unfold processLabel
  rcases hf : findLabel st.labels L.name L.color L.description with _ | e
  · by_cases h : st.delete = true ∧ strLower L.name ∉ st.ignores
    · by_cases hd : st.debug = true
      · left
        simp [h, hd]
      · right
        right
        simp [h, hd]
    · left
      simp [h]
  · by_cases hm : e.modified = true
    · by_cases hd : st.debug = true
      · left
        simp [hm, hd]
      · right
        left
        exact ⟨e, by simp [hm, hd], rfl, hm⟩
    · left
      simp [hm]

theorem phase1_no_create {st : SyncState} {R : List RemoteLabel} :
    ∀ a ∈ phase1ApiCalls st R, ∀ n c d, a ≠ .create n c d := by
  intro a ha n c d
  simp only [phase1ApiCalls, List.mem_flatten, List.mem_map] at ha
  obtain ⟨_, ⟨L, _, rfl⟩, haL⟩ := ha
  rcases processLabel_calls_shape st L with h | ⟨e, h, _, _⟩ | h <;> rw [h] at haL
  · exact absurd haL (List.not_mem_nil a)
  · rcases List.mem_singleton.mp haL with rfl
    simp
  · rcases List.mem_singleton.mp haL with rfl
    simp

/-! ## C5: rename preservation -/

/-- C5 counterexample: with a live label `"bug"` whose color and
description already equal the spec's, the run issues NO edit call for
the `{name: defect, priorName: bug}` spec — the rename is never
applied (the `modified` flag ignores the name change) — and instead a
`createLabel("defect", ...)` call is issued, contradicting "exactly
one edit call and zero create calls". -/
theorem rename_with_matching_attributes_issues_no_edit :
    syncApiCalls ⟨[⟨"defect", some "bug", "d73a4a", some "A bug"⟩], [], false, false⟩
      [⟨"bug", "d73a4a", "A bug"⟩] = [.create "defect" "d73a4a" "A bug"] := rfl

/-- C5 amended: in the canonical rename run — live label list exactly
`[{name: bug, color: c, description: d}]`, spec list exactly the one
LabelSpec `{name: defect, priorName: bug, color: d73a4a, description:
"A bug"}`, debug off — PROVIDED the live label's color differs
case-insensitively from `d73a4a` or its description differs from
`"A bug"`, `sync()` issues exactly one call, the edit
`editLabel("bug", "defect", "d73a4a", "A bug")` (so zero deletes and
zero creates), for any delete-mode setting and ignore set. -/
theorem rename_edit_issued_when_modified (c d : String) (del : Bool)
    (ign : List String)
    (h : strLower c ≠ strLower "d73a4a" ∨ d ≠ "A bug") :
    syncApiCalls ⟨[⟨"defect", some "bug", "d73a4a", some "A bug"⟩], ign, del, false⟩
      [⟨"bug", c, d⟩] = [.edit "bug" "defect" "d73a4a" "A bug"] := by
  have hmod : (!(strLower c == strLower "d73a4a") || !(d == "A bug")) = true := by
    rcases h with h | h <;> simp [h]
  simp [syncApiCalls, phase1ApiCalls, processLabel, findLabel, createApiCalls,
    syncUpdated, LabelSpec.matchName, LabelSpec.descr, hmod]

/-- Witness for `rename_edit_issued_when_modified` with a live color
`ffffff`. -/
theorem rename_edit_issued_when_modified_witness :
    syncApiCalls ⟨[⟨"defect", some "bug", "d73a4a", some "A bug"⟩], [], true, false⟩
      [⟨"bug", "ffffff", "A bug"⟩] = [.edit "bug" "defect" "d73a4a" "A bug"] :=
  rename_edit_issued_when_modified "ffffff" "A bug" true [] (Or.inl (by decide))

/-! ## C10: case-sensitive accounting versus case-insensitive matching -/

/-- C10: when the (only) live label `L` matches the (only) spec `S`
case-insensitively with no modification — outcome Skipped — but
`L.name` differs from `S.name` in letter case, the `updated` set
receives only `L.name`, and the create phase, whose membership test is
case-SENSITIVE, still issues `createLabel(S.name, S.color,
S.description)` although a case-variant of that label exists on the
remote. -/
theorem case_variant_skip_still_creates (L : RemoteLabel) (S : LabelSpec)
    (del : Bool) (ign : List String)
    (hren : S.renamed = none)
    (hlow : strLower L.name = strLower S.name)
    (hne : L.name ≠ S.name)
    (hcol : strLower L.color = strLower S.color)
    (hdesc : L.description = S.descr) :
    syncApiCalls ⟨[S], ign, del, false⟩ [L] = [.create S.name S.color S.descr] := by
  have hfind : findLabel [S] L.name L.color L.description =
      some ⟨S.name, S.name, S.color, S.descr,
        (strLower L.name == strLower S.name) &&
          (!(strLower L.color == strLower S.color) || !(L.description == S.descr))⟩ := by
    simp [findLabel, LabelSpec.matchName, hren, hlow]
  have hmod : ((strLower L.name == strLower S.name) &&
      (!(strLower L.color == strLower S.color) || !(L.description == S.descr))) = false := by
    simp [hcol, hdesc]
  have hproc : processLabel ⟨[S], ign, del, false⟩ L = ([], .skipped, [L.name]) := by
    simp [processLabel, hfind, hmod]
  simp [syncApiCalls, phase1ApiCalls, createApiCalls, syncUpdated, hproc,
    LabelSpec.descr, hne, Ne.symm hne]

/-- Witness for `case_variant_skip_still_creates`: live `"Bug"` versus
spec `"bug"`, equal color up to case, equal description. -/
theorem case_variant_skip_still_creates_witness :
    syncApiCalls ⟨[⟨"bug", none, "1d76db", some "x"⟩], [], true, false⟩
      [⟨"Bug", "1D76DB", "x"⟩] = [.create "bug" "1d76db" "x"] :=
  case_variant_skip_still_creates ⟨"Bug", "1D76DB", "x"⟩ ⟨"bug", none, "1d76db", some "x"⟩
    true [] rfl (by decide) (by decide) (by decide) (by decide)

/-! ## C2: the "accounted for" bookkeeping -/

/-- C2 counterexample: live label `"bug"` matches the spec
`{name: defect, priorName: bug}` WITHOUT modification (Skipped
outcome), yet a `createLabel("defect", ...)` call is issued in the
same run: in the Skipped branch only `L.name` is marked accounted for,
not `S.name`. -/
theorem skipped_rename_match_still_creates :
    findLabel [⟨"defect", some "bug", "d73a4a", some "A bug"⟩] "bug" "d73a4a" "A bug" =
      some ⟨"bug", "defect", "d73a4a", "A bug", false⟩ ∧
    syncApiCalls ⟨[⟨"defect", some "bug", "d73a4a", some "A bug"⟩], [], true, false⟩
      [⟨"bug", "d73a4a", "A bug"⟩] = [.create "defect" "d73a4a" "A bug"] :=
  ⟨rfl, rfl⟩

/-- C2 amended: only a match with an Updated (modified) outcome marks
both the matched prior name and `S.name` as accounted for — and then
no `createLabel` call for `S.name` is issued in that run; a Skipped
(unmodified) match marks only the live label's own name, so when the
spec renames the label a create for `S.name` can still follow. -/
theorem updated_match_marks_both_names {st : SyncState} {R : List RemoteLabel}
    {L : RemoteLabel} {e : LabelEdit} (hL : L ∈ R)
    (hf : findLabel st.labels L.name L.color L.description = some e)
    (hm : e.modified = true) :
    e.old ∈ syncUpdated st R ∧ e.new ∈ syncUpdated st R ∧
    ∀ c d, ApiCall.create e.new c d ∉ syncApiCalls st R := by
  have hupd : (processLabel st L).2.2 = [e.old, e.new] := by
    simp [processLabel, hf, hm]
  have hold : e.old ∈ syncUpdated st R :=
    mem_syncUpdated_of hL (by rw [hupd]; simp)
  have hnew : e.new ∈ syncUpdated st R :=
    mem_syncUpdated_of hL (by rw [hupd]; simp)
  refine ⟨hold, hnew, ?_⟩
  intro c d hmem
  unfold syncApiCalls at hmem
  rcases List.mem_append.mp hmem with hmem | hmem
  · exact phase1_no_create _ hmem e.new c d rfl
  · unfold createApiCalls at hmem
    split at hmem
    · exact absurd hmem (List.not_mem_nil _)
    · rcases List.mem_map.mp hmem with ⟨v, hv, heq⟩
      have hvn : v.name = e.new := by injection heq
      have hfil := (List.mem_filter.mp hv).2
      rw [hvn] at hfil
      simp at hfil
      exact hfil hnew

/-- Witness for `updated_match_marks_both_names` on a concrete
modified rename match. -/
theorem updated_match_marks_both_names_witness :
    ("bug" : String) ∈ syncUpdated ⟨[⟨"defect", some "bug", "d73a4a", some "A bug"⟩],
      [], true, false⟩ [⟨"bug", "ffffff", "A bug"⟩] ∧
    ("defect" : String) ∈ syncUpdated ⟨[⟨"defect", some "bug", "d73a4a", some "A bug"⟩],
      [], true, false⟩ [⟨"bug", "ffffff", "A bug"⟩] ∧
    ∀ c d, ApiCall.create "defect" c d ∉
      syncApiCalls ⟨[⟨"defect", some "bug", "d73a4a", some "A bug"⟩], [], true, false⟩
        [⟨"bug", "ffffff", "A bug"⟩] :=
  @updated_match_marks_both_names
    ⟨[⟨"defect", some "bug", "d73a4a", some "A bug"⟩], [], true, false⟩
    [⟨"bug", "ffffff", "A bug"⟩] ⟨"bug", "ffffff", "A bug"⟩
    ⟨"bug", "defect", "d73a4a", "A bug", true⟩
    (List.mem_singleton.mpr rfl) (by decide) rfl

/-! ## C9: creation ordering -/

theorem validateStr_ok {v : RVal} {s : String} (h : validateStr v = .ok s) :
    v = .str s := by
  cases v with
  | str t =>
      injection h with h
      rw [h]
  | other => simp [validateStr] at h

theorem parseLabels_cons_ok {table : List (String × String)} {e : RawLabel}
    {rest : List RawLabel} {seen : List String} {specs : List LabelSpec}
    (h : parseLabels table (e :: rest) seen = .ok specs) :
    ∃ name ren color desc specs',
      validateStr e.name = .ok name ∧
      parseLabels table rest (strLower name :: seen) = .ok specs' ∧
      specs = ⟨name, ren, color, desc⟩ :: specs' := by
  cases hname : e.name with
  | other => simp [parseLabels, hname, validateStr, Except.bind, bind] at h
  | str s =>
  cases hc : resolveColor table e.color with
  | error err => simp [parseLabels, hname, hc, validateStr, Except.bind, bind] at h
  | ok color =>
  have core : ∀ (ren desc : Option String),
      (if strLower s ∈ seen then (.error .duplicateLabelName : Except CfgError (List LabelSpec))
       else Except.bind (parseLabels table rest (strLower s :: seen))
         fun specs' => .ok (⟨s, ren, color, desc⟩ :: specs')) = .ok specs →
      ∃ name ren' color' desc' specs',
        validateStr (RVal.str s) = .ok name ∧
        parseLabels table rest (strLower name :: seen) = .ok specs' ∧
        specs = ⟨name, ren', color', desc'⟩ :: specs' := by
    intro ren desc hcore
    by_cases hs : strLower s ∈ seen
    · rw [if_pos hs] at hcore
      exact absurd hcore (by simp)
    · rw [if_neg hs] at hcore
      cases hrec : parseLabels table rest (strLower s :: seen) with
      | error err =>
          rw [hrec] at hcore
          exact absurd hcore (by simp [Except.bind])
      | ok specs' =>
          rw [hrec] at hcore
          simp only [Except.bind] at hcore
          injection hcore with hcore
          exact ⟨s, ren, color, desc, specs', rfl, hrec, hcore.symm⟩
  rcases hr : e.renamed with _ | rv
  · rcases hd : e.description with _ | dv
    · refine core none none ?_
      simpa [parseLabels, hname, hc, hr, hd, validateStr, Except.bind, bind, pure, Except.pure] using h
    · cases dv with
      | str ds =>
          refine core none (some ds) ?_
          simpa [parseLabels, hname, hc, hr, hd, validateStr, Except.bind, bind, pure, Except.pure] using h
      | other => simp [parseLabels, hname, hc, hr, hd, validateStr, Except.bind, bind, pure, Except.pure] at h
  · cases rv with
    | str rs =>
        rcases hd : e.description with _ | dv
        · refine core (some rs) none ?_
          simpa [parseLabels, hname, hc, hr, hd, validateStr, Except.bind, bind, pure, Except.pure] using h
        · cases dv with
          | str ds =>
              refine core (some rs) (some ds) ?_
              simpa [parseLabels, hname, hc, hr, hd, validateStr, Except.bind, bind, pure, Except.pure] using h
          | other => simp [parseLabels, hname, hc, hr, hd, validateStr, Except.bind, bind, pure, Except.pure] at h
    | other => simp [parseLabels, hname, hc, hr, validateStr, Except.bind, bind, pure, Except.pure] at h

theorem parseLabels_names {table : List (String × String)} {l : List RawLabel}
    {seen : List String} {specs : List LabelSpec}
    (h : parseLabels table l seen = .ok specs) :
    specs.map (fun s => RVal.str s.name) = l.map RawLabel.name := by
  induction l generalizing seen specs with
  | nil =>
      simp only [parseLabels] at h
      injection h with h
      simp [← h]
  | cons e rest ih =>
      obtain ⟨name, ren, color, desc, specs', hn, hrec, hspec⟩ := parseLabels_cons_ok h
      subst hspec
      simp only [List.map_cons]
      rw [validateStr_ok hn, ih hrec]

/-- C9: all `createLabel` calls of a run come after the complete
live-label phase (the call trace is the phase-1 trace followed by the
creates, and phase 1 contains no create), and the creates are the
order-preserving restriction of the spec collection — which itself
preserves the raw configuration order of the label entries — to the
specs whose name was not accounted for. -/
theorem creates_follow_live_processing_in_config_order
    (colorsRaw : List (RVal × RVal)) (labelsRaw : List RawLabel)
    (ignoresRaw : List RVal) (b : BuildResult) (del : Bool)
    (live : List RemoteLabel)
    (hb : buildConfig colorsRaw labelsRaw ignoresRaw = .ok b) :
    syncApiCalls ⟨b.labels, b.ignores, del, false⟩ live =
      phase1ApiCalls ⟨b.labels, b.ignores, del, false⟩ live ++
        (b.labels.filter (fun v =>
          decide (v.name ∉ syncUpdated ⟨b.labels, b.ignores, del, false⟩ live))).map
          (fun v => .create v.name v.color v.descr) ∧
    (∀ a ∈ phase1ApiCalls ⟨b.labels, b.ignores, del, false⟩ live,
      ∀ n c d, a ≠ .create n c d) ∧
    b.labels.map (fun s => RVal.str s.name) = labelsRaw.map RawLabel.name := by
  refine ⟨by simp [syncApiCalls, createApiCalls], phase1_no_create, ?_⟩
  cases hc : parseColors colorsRaw with
  | error err => simp [buildConfig, hc, Except.bind, bind] at hb
  | ok table =>
  cases hl : parseLabels table labelsRaw [] with
  | error err => simp [buildConfig, hc, hl, Except.bind, bind] at hb
  | ok specs =>
  cases hi : parseIgnores ignoresRaw with
  | error err => simp [buildConfig, hc, hl, hi, Except.bind, bind] at hb
  | ok igns =>
      simp only [buildConfig, hc, hl, hi, Except.bind, bind] at hb
      injection hb with hb
      rw [← hb]
      exact parseLabels_names hl

/-- Witness for `creates_follow_live_processing_in_config_order` on a
two-spec configuration against a one-label remote. -/
theorem creates_follow_live_processing_in_config_order_witness :
    syncApiCalls ⟨[⟨"alpha", none, "#aaaaaa", none⟩, ⟨"beta", none, "#bbbbbb", none⟩],
        [], true, false⟩ [⟨"alpha", "#aaaaaa", ""⟩] =
      phase1ApiCalls ⟨[⟨"alpha", none, "#aaaaaa", none⟩, ⟨"beta", none, "#bbbbbb", none⟩],
        [], true, false⟩ [⟨"alpha", "#aaaaaa", ""⟩] ++
        (([⟨"alpha", none, "#aaaaaa", none⟩, ⟨"beta", none, "#bbbbbb", none⟩] :
          List LabelSpec).filter (fun v =>
          decide (v.name ∉ syncUpdated ⟨[⟨"alpha", none, "#aaaaaa", none⟩,
            ⟨"beta", none, "#bbbbbb", none⟩], [], true, false⟩
            [⟨"alpha", "#aaaaaa", ""⟩]))).map
          (fun v => .create v.name v.color v.descr) ∧
    (∀ a ∈ phase1ApiCalls ⟨[⟨"alpha", none, "#aaaaaa", none⟩,
        ⟨"beta", none, "#bbbbbb", none⟩], [], true, false⟩ [⟨"alpha", "#aaaaaa", ""⟩],
      ∀ n c d, a ≠ .create n c d) ∧
    ([⟨"alpha", none, "#aaaaaa", none⟩, ⟨"beta", none, "#bbbbbb", none⟩] :
      List LabelSpec).map (fun s => RVal.str s.name) =
      [(⟨.str "alpha", .str "#aaaaaa", none, none⟩ : RawLabel),
        ⟨.str "beta", .str "#bbbbbb", none, none⟩].map RawLabel.name :=
  creates_follow_live_processing_in_config_order []
    [⟨.str "alpha", .str "#aaaaaa", none, none⟩, ⟨.str "beta", .str "#bbbbbb", none, none⟩]
    [] ⟨[], [⟨"alpha", none, "#aaaaaa", none⟩, ⟨"beta", none, "#bbbbbb", none⟩], []⟩
    true [⟨"alpha", "#aaaaaa", ""⟩] rfl

/-! ## C8: delete gating for unmatched live labels -/

theorem mem_phase1 {st : SyncState} {R : List RemoteLabel} {a : ApiCall}
    (ha : a ∈ phase1ApiCalls st R) : ∃ M ∈ R, a ∈ (processLabel st M).1 := by
  simp only [phase1ApiCalls, List.mem_flatten, List.mem_map] at ha
  obtain ⟨_, ⟨M, hM, rfl⟩, haM⟩ := ha
  exact ⟨M, hM, haM⟩

theorem processLabel_count_delete_ne {st : SyncState} {M : RemoteLabel} {x : String}
    (hne : M.name ≠ x) : ((processLabel st M).1).count (.delete x) = 0 := by
  rw [List.count_eq_zero]
  intro hmem
  rcases processLabel_calls_shape st M with h | ⟨e, h, _, _⟩ | h <;> rw [h] at hmem
  · exact absurd hmem (List.not_mem_nil _)
  · rcases List.mem_singleton.mp hmem with h'
    exact ApiCall.noConfusion h'
  · rcases List.mem_singleton.mp hmem with h'
    exact hne (ApiCall.delete.inj h').symm

theorem phase1_count_delete_zero {st : SyncState} {R : List RemoteLabel} {x : String}
    (hx : ∀ M ∈ R, strLower M.name ≠ strLower x) :
    (phase1ApiCalls st R).count (.delete x) = 0 := by
  induction R with
  | nil => simp [phase1ApiCalls]
  | cons M T ih =>
      rw [phase1_cons, List.count_append]
      have h1 : M.name ≠ x := fun h => hx M (List.mem_cons_self M T) (by rw [h])
      rw [processLabel_count_delete_ne h1,
        ih (fun N hN => hx N (List.mem_cons_of_mem _ hN))]

theorem phase1_count_delete_one {st : SyncState} {R : List RemoteLabel}
    {L : RemoteLabel} (hnd : (R.map (fun M => strLower M.name)).Nodup) (hL : L ∈ R)
    (hproc : (processLabel st L).1 = [.delete L.name]) :
    (phase1ApiCalls st R).count (.delete L.name) = 1 := by
  induction R with
  | nil => cases hL
  | cons M T ih =>
      rw [List.map_cons, List.nodup_cons] at hnd
      rw [phase1_cons, List.count_append]
      rcases List.mem_cons.mp hL with rfl | hL'
      · rw [hproc]
        have hz : (phase1ApiCalls st T).count (.delete L.name) = 0 := by
          refine phase1_count_delete_zero ?_
          intro N hN h
          exact hnd.1 (h ▸ List.mem_map_of_mem _ hN)
        simp [hz]
      · have h1 : M.name ≠ L.name := by
          intro h
          exact hnd.1 (h ▸ List.mem_map_of_mem _ hL')
        rw [processLabel_count_delete_ne h1, ih hnd.2 hL']

theorem createApiCalls_count_delete (st : SyncState) (R : List RemoteLabel)
    (x : String) : (createApiCalls st R).count (.delete x) = 0 := by
  rw [List.count_eq_zero]
  intro hmem
  unfold createApiCalls at hmem
  split at hmem
  · exact absurd hmem (List.not_mem_nil _)
  · rcases List.mem_map.mp hmem with ⟨v, _, heq⟩
    exact ApiCall.noConfusion heq

/-- C8: for a live label with no matching LabelSpec (and debug off,
live names case-insensitively unique as on GitHub): when delete mode
is on and the lower-cased name is not ignored, the run issues exactly
one `deleteLabel(L.name)` call and reports `Deleted`; otherwise the
label's processing issues no call at all, no `deleteLabel(L.name)`
appears anywhere in the run, and the outcome is `Skipped`. -/
theorem unmatched_label_delete_gating {st : SyncState} {R : List RemoteLabel}
    {L : RemoteLabel} (hdbg : st.debug = false)
    (hnd : (R.map (fun M => strLower M.name)).Nodup) (hL : L ∈ R)
    (hf : findLabel st.labels L.name L.color L.description = none) :
    (st.delete = true ∧ strLower L.name ∉ st.ignores →
      processLabel st L = ([.delete L.name], .deleted, [L.name]) ∧
      (syncApiCalls st R).count (.delete L.name) = 1) ∧
    (¬(st.delete = true ∧ strLower L.name ∉ st.ignores) →
      processLabel st L = ([], .skipped, [L.name]) ∧
      ApiCall.delete L.name ∉ syncApiCalls st R) := by
  constructor
  · intro hcond
    have hproc : processLabel st L = ([.delete L.name], .deleted, [L.name]) := by
      simp [processLabel, hf, hcond, hdbg]
    refine ⟨hproc, ?_⟩
    rw [syncApiCalls, List.count_append, createApiCalls_count_delete,
      phase1_count_delete_one hnd hL (by rw [hproc])]
  · intro hcond
    have hproc : processLabel st L = ([], .skipped, [L.name]) := by
      simp [processLabel, hf, hcond, hdbg]
    refine ⟨hproc, ?_⟩
    intro hmem
    rw [syncApiCalls] at hmem
    rcases List.mem_append.mp hmem with hmem | hmem
    · obtain ⟨M, hM, haM⟩ := mem_phase1 hmem
      rcases processLabel_calls_shape st M with h | ⟨e, h, _, _⟩ | h <;> rw [h] at haM
      · exact absurd haM (List.not_mem_nil _)
      · exact ApiCall.noConfusion (List.mem_singleton.mp haM)
      · have hMn : M.name = L.name := (ApiCall.delete.inj (List.mem_singleton.mp haM)).symm
        have hML : M = L := by
          refine List.inj_on_of_nodup_map hnd hM hL ?_
          rw [hMn]
        rw [hML, hproc] at h
        simp at h
    · have := createApiCalls_count_delete st R L.name
      rw [List.count_eq_zero] at this
      exact this hmem

/-- Witness for `unmatched_label_delete_gating` on a one-label remote
with an empty spec list, delete mode on. -/
theorem unmatched_label_delete_gating_witness :
    ((true : Bool) = true ∧ strLower "oldie" ∉ ([] : List String) →
      processLabel ⟨[], [], true, false⟩ ⟨"oldie", "cccccc", ""⟩ =
        ([.delete "oldie"], .deleted, ["oldie"]) ∧
      (syncApiCalls ⟨[], [], true, false⟩ [⟨"oldie", "cccccc", ""⟩]).count
        (.delete "oldie") = 1) ∧
    (¬((true : Bool) = true ∧ strLower "oldie" ∉ ([] : List String)) →
      processLabel ⟨[], [], true, false⟩ ⟨"oldie", "cccccc", ""⟩ =
        ([], .skipped, ["oldie"]) ∧
      ApiCall.delete "oldie" ∉ syncApiCalls ⟨[], [], true, false⟩
        [⟨"oldie", "cccccc", ""⟩]) :=
  @unmatched_label_delete_gating ⟨[], [], true, false⟩ [⟨"oldie", "cccccc", ""⟩]
    ⟨"oldie", "cccccc", ""⟩ rfl (by decide) (List.mem_singleton.mpr rfl) rfl

/-! ## C1: idempotence of `sync` -/

theorem applyApiCalls_cons (X : List RemoteLabel) (a : ApiCall) (as : List ApiCall) :
    applyApiCalls X (a :: as) = applyApiCalls (applyApiCall X a) as := rfl

theorem applyApiCalls_append (X : List RemoteLabel) (as bs : List ApiCall) :
    applyApiCalls X (as ++ bs) = applyApiCalls (applyApiCalls X as) bs := by
  simp [applyApiCalls, List.foldl_append]

theorem phase1_keys {st : SyncState} {T : List RemoteLabel}
    (hR : ∀ s ∈ st.labels, s.renamed = none) :
    ∀ a ∈ phase1ApiCalls st T, ∀ k, apiCallKey a = some k →
      k ∈ T.map (fun M => strLower M.name) := by
  induction T with
  | nil => simp [phase1ApiCalls]
  | cons M T ih =>
      intro a ha k hk
      rw [phase1_cons] at ha
      rw [List.map_cons]
      rcases List.mem_append.mp ha with ha | ha
      · rcases processLabel_calls_shape st M with h | ⟨e, h, hf, _⟩ | h <;> rw [h] at ha
        · exact absurd ha (List.not_mem_nil _)
        · rcases List.mem_singleton.mp ha with rfl
          simp only [apiCallKey] at hk
          injection hk with hk
          subst hk
          rw [← findLabel_old_lower hf]
          exact List.mem_cons_self _ _
        · rcases List.mem_singleton.mp ha with rfl
          simp only [apiCallKey] at hk
          injection hk with hk
          subst hk
          exact List.mem_cons_self _ _
      · exact List.mem_cons_of_mem _ (ih a ha k hk)

theorem applyApiCalls_cons_of_avoid {hd : RemoteLabel} {T : List RemoteLabel}
    {as : List ApiCall}
    (h : ∀ a ∈ as, ∀ k, apiCallKey a = some k → k ≠ strLower hd.name) :
    applyApiCalls (hd :: T) as = hd :: applyApiCalls T as := by
  induction as generalizing T with
  | nil => rfl
  | cons a as ih =>
      have hstep : applyApiCall (hd :: T) a = hd :: applyApiCall T a := by
        cases a with
        | create n c d => simp [applyApiCall]
        | edit o nn c d =>
            have hne : strLower hd.name ≠ strLower o :=
              fun he => h _ (List.mem_cons_self _ _) (strLower o) rfl he.symm
            simp [applyApiCall, editFirst, hne]
        | delete n =>
            have hne : strLower hd.name ≠ strLower n :=
              fun he => h _ (List.mem_cons_self _ _) (strLower n) rfl he.symm
            simp [applyApiCall, deleteFirst, hne]
      rw [applyApiCalls_cons, hstep, applyApiCalls_cons]
      exact ih (fun a' ha' k hk => h a' (List.mem_cons_of_mem _ ha') k hk)

theorem applyApiCalls_creates (X : List RemoteLabel) (cs : List LabelSpec) :
    applyApiCalls X (cs.map (fun v => .create v.name v.color v.descr)) =
      X ++ cs.map (fun v => ⟨v.name, v.color, v.descr⟩) := by
  induction cs generalizing X with
  | nil => simp [applyApiCalls]
  | cons v cs ih =>
      rw [List.map_cons, applyApiCalls_cons]
      show applyApiCalls (X ++ [⟨v.name, v.color, v.descr⟩]) _ = _
      rw [ih, List.map_cons, List.append_assoc, List.singleton_append]

theorem applyApiCalls_phase1 {st : SyncState} {R : List RemoteLabel}
    (hR : ∀ s ∈ st.labels, s.renamed = none)
    (hdbg : st.debug = false)
    (hnd : (R.map (fun M => strLower M.name)).Nodup) :
    applyApiCalls R (phase1ApiCalls st R) = R.filterMap (syncStep st) := by
  induction R with
  | nil => rfl
  | cons L T ih =>
      rw [List.map_cons, List.nodup_cons] at hnd
      have havoid : ∀ a ∈ phase1ApiCalls st T, ∀ k, apiCallKey a = some k →
          k ≠ strLower L.name := by
        intro a ha k hk he
        exact hnd.1 (he ▸ phase1_keys hR a ha k hk)
      rw [phase1_cons]
      rcases hf : findLabel st.labels L.name L.color L.description with _ | e
      · by_cases hc : st.delete = true ∧ strLower L.name ∉ st.ignores
        · have hcalls : (processLabel st L).1 = [.delete L.name] := by
            simp [processLabel, hf, hc, hdbg]
          rw [hcalls, applyApiCalls_append]
          have h1 : applyApiCalls (L :: T) [.delete L.name] = T := by
            simp [applyApiCalls, applyApiCall, deleteFirst]
          rw [h1, ih hnd.2]
          simp [List.filterMap_cons, syncStep, hf, hc]
        · have hcalls : (processLabel st L).1 = [] := by
            simp [processLabel, hf, hc]
          rw [hcalls, List.nil_append, applyApiCalls_cons_of_avoid havoid, ih hnd.2]
          simp [List.filterMap_cons, syncStep, hf, hc]
      · by_cases hm : e.modified = true
        · have hcalls : (processLabel st L).1 =
              [.edit e.old e.new e.color e.description] := by
            simp [processLabel, hf, hm, hdbg]
          have hol : strLower L.name = strLower e.old := findLabel_old_lower hf
          obtain ⟨S, hSmem, he⟩ := findLabel_spec hf
          have hon : e.old = e.new := by
            rw [he]
            simp [LabelSpec.matchName, hR S hSmem]
          rw [hcalls, applyApiCalls_append]
          have h1 : applyApiCalls (L :: T) [.edit e.old e.new e.color e.description] =
              ⟨e.new, e.color, e.description⟩ :: T := by
            simp [applyApiCalls, applyApiCall, editFirst, hol]
          rw [h1]
          have havoid2 : ∀ a ∈ phase1ApiCalls st T, ∀ k, apiCallKey a = some k →
              k ≠ strLower (⟨e.new, e.color, e.description⟩ : RemoteLabel).name := by
            intro a ha k hk hke
            refine havoid a ha k hk ?_
            rw [hke]
            show strLower e.new = strLower L.name
            rw [← hon, ← hol]
          rw [applyApiCalls_cons_of_avoid havoid2, ih hnd.2]
          simp [List.filterMap_cons, syncStep, hf, hm]
        · have hcalls : (processLabel st L).1 = [] := by
            simp [processLabel, hf, hm]
          rw [hcalls, List.nil_append, applyApiCalls_cons_of_avoid havoid, ih hnd.2]
          simp [List.filterMap_cons, syncStep, hf, hm]

theorem remoteAfter_eq {st : SyncState} {R : List RemoteLabel}
    (hR : ∀ s ∈ st.labels, s.renamed = none)
    (hdbg : st.debug = false)
    (hnd : (R.map (fun M => strLower M.name)).Nodup) :
    remoteAfter st R = R.filterMap (syncStep st) ++
      (st.labels.filter (fun v => decide (v.name ∉ syncUpdated st R))).map
        (fun v => ⟨v.name, v.color, v.descr⟩) := by
  rw [remoteAfter, syncApiCalls, applyApiCalls_append,
    applyApiCalls_phase1 hR hdbg hnd, createApiCalls, hdbg]
  simp only [Bool.false_eq_true, if_false]
  rw [applyApiCalls_creates]

theorem processLabel_skip_of_spec {st : SyncState} {v : LabelSpec}
    (hR : ∀ s ∈ st.labels, s.renamed = none)
    (hS : (st.labels.map (fun s => strLower s.name)).Nodup)
    (hv : v ∈ st.labels) :
    processLabel st ⟨v.name, v.color, v.descr⟩ = ([], .skipped, [v.name]) := by
  have hfind := @findLabel_first_nodup st.labels v v.name v.color v.descr hR hS hv rfl
  simp [processLabel, hfind]

theorem step_then_skip {st : SyncState} {L L' : RemoteLabel}
    (hR : ∀ s ∈ st.labels, s.renamed = none)
    (hS : (st.labels.map (fun s => strLower s.name)).Nodup)
    (hstep : syncStep st L = some L') :
    processLabel st L' = ([], .skipped, [L'.name]) := by
  rcases hf : findLabel st.labels L.name L.color L.description with _ | e <;>
    simp only [syncStep, hf] at hstep
  · split at hstep
    · exact absurd hstep (by simp)
    · next hcond =>
        injection hstep with hstep
        subst hstep
        simp [processLabel, hf, hcond]
  · split at hstep
    · next hm =>
        injection hstep with hstep
        subst hstep
        obtain ⟨S, hSmem, he⟩ := findLabel_spec hf
        have hnew : e.new = S.name := by rw [he]
        have hcol : e.color = S.color := by rw [he]
        have hde : e.description = S.descr := by rw [he]
        rw [hnew, hcol, hde]
        exact processLabel_skip_of_spec hR hS hSmem
    · next hm =>
        injection hstep with hstep
        subst hstep
        have hm' : e.modified = false := by
          revert hm
          cases e.modified <;> simp
        simp [processLabel, hf, hm']

theorem processLabel_all_skip {st : SyncState} {X : List RemoteLabel}
    (hall : ∀ L ∈ X, processLabel st L = ([], .skipped, [L.name])) :
    phase1ApiCalls st X = [] ∧ syncUpdated st X = X.map (fun L => L.name) ∧
    syncOutcomes st X = X.map (fun _ => .skipped) := by
  induction X with
  | nil => exact ⟨rfl, rfl, rfl⟩
  | cons L T ih =>
      obtain ⟨h1, h2, h3⟩ := ih (fun M hM => hall M (List.mem_cons_of_mem _ hM))
      have hL := hall L (List.mem_cons_self _ _)
      refine ⟨?_, ?_, ?_⟩
      · rw [phase1_cons, hL, h1]
        rfl
      · rw [syncUpdated_cons, hL, h2]
        rfl
      · simp only [syncOutcomes, List.map_cons] at h3 ⊢
        rw [hL, h3]

theorem spec_names_covered {st : SyncState} {R : List RemoteLabel}
    (hR : ∀ s ∈ st.labels, s.renamed = none)
    (hdbg : st.debug = false)
    (hnd : (R.map (fun M => strLower M.name)).Nodup) :
    ∀ v ∈ st.labels, v.name ∈ (remoteAfter st R).map (fun L => L.name) := by
  intro v hv
  rw [remoteAfter_eq hR hdbg hnd, List.map_append]
  by_cases hu : v.name ∈ syncUpdated st R
  · refine List.mem_append.mpr (Or.inl ?_)
    rw [syncUpdated] at hu
    rcases List.mem_flatten.mp hu with ⟨u, hu1, hu2⟩
    rcases List.mem_map.mp hu1 with ⟨L, hL, rfl⟩
    refine List.mem_map.mpr ?_
    rcases hf : findLabel st.labels L.name L.color L.description with _ | e
    · by_cases hc : st.delete = true ∧ strLower L.name ∉ st.ignores
      · exfalso
        have hupd : (processLabel st L).2.2 = [L.name] := by
          simp [processLabel, hf, hc, hdbg]
        rw [hupd] at hu2
        have hvL : v.name = L.name := List.mem_singleton.mp hu2
        have hmatch : v.matchName = v.name := by
          simp [LabelSpec.matchName, hR v hv]
        exact findLabel_none hf v hv (by rw [hmatch, ← hvL])
      · have hupd : (processLabel st L).2.2 = [L.name] := by
          simp [processLabel, hf, hc]
        rw [hupd] at hu2
        have hvL : v.name = L.name := List.mem_singleton.mp hu2
        refine ⟨L, List.mem_filterMap.mpr ⟨L, hL, ?_⟩, hvL.symm⟩
        simp [syncStep, hf, hc]
    · by_cases hm : e.modified = true
      · have hupd : (processLabel st L).2.2 = [e.old, e.new] := by
          simp [processLabel, hf, hm]
        rw [hupd] at hu2
        obtain ⟨S, hSmem, he⟩ := findLabel_spec hf
        have hon : e.old = e.new := by
          rw [he]
          simp [LabelSpec.matchName, hR S hSmem]
        have hvn : v.name = e.new := by
          rcases List.mem_cons.mp hu2 with h | h
          · rw [h, hon]
          · exact List.mem_singleton.mp h
        refine ⟨⟨e.new, e.color, e.description⟩,
          List.mem_filterMap.mpr ⟨L, hL, ?_⟩, hvn.symm⟩
        simp [syncStep, hf, hm]
      · have hupd : (processLabel st L).2.2 = [L.name] := by
          simp [processLabel, hf, hm]
        rw [hupd] at hu2
        have hvL : v.name = L.name := List.mem_singleton.mp hu2
        refine ⟨L, List.mem_filterMap.mpr ⟨L, hL, ?_⟩, hvL.symm⟩
        simp [syncStep, hf, hm]
  · refine List.mem_append.mpr (Or.inr ?_)
    refine List.mem_map.mpr ⟨⟨v.name, v.color, v.descr⟩, ?_, rfl⟩
    refine List.mem_map.mpr ⟨v, List.mem_filter.mpr ⟨hv, by simp [hu]⟩, rfl⟩

/-- C1 counterexample: with delete mode on and the single spec
`{name: defect, priorName: bug}` against a remote holding `bug` with
already-matching color/description, the FIRST run skips `bug` and
creates `defect`; the SECOND run then deletes `defect` (it matches no
spec, since the spec only matches its prior name), so the second run
issues a call and changes the remote state: `sync` is not idempotent
when delete mode is enabled and a priorName is declared. -/
theorem sync_not_idempotent_with_priorName_delete :
    syncApiCalls ⟨[⟨"defect", some "bug", "d73a4a", some "A bug"⟩], [], true, false⟩
        [⟨"bug", "d73a4a", "A bug"⟩] = [.create "defect" "d73a4a" "A bug"] ∧
    syncApiCalls ⟨[⟨"defect", some "bug", "d73a4a", some "A bug"⟩], [], true, false⟩
        (remoteAfter ⟨[⟨"defect", some "bug", "d73a4a", some "A bug"⟩], [], true, false⟩
          [⟨"bug", "d73a4a", "A bug"⟩]) = [.delete "defect"] ∧
    remoteAfter ⟨[⟨"defect", some "bug", "d73a4a", some "A bug"⟩], [], true, false⟩
        (remoteAfter ⟨[⟨"defect", some "bug", "d73a4a", some "A bug"⟩], [], true, false⟩
          [⟨"bug", "d73a4a", "A bug"⟩]) ≠
      remoteAfter ⟨[⟨"defect", some "bug", "d73a4a", some "A bug"⟩], [], true, false⟩
        [⟨"bug", "d73a4a", "A bug"⟩] :=
  ⟨rfl, rfl, by decide⟩

/-- C1 amended: `sync` is idempotent for configurations in which no
LabelSpec declares a priorName: for every such state (spec names
case-insensitively unique, as configuration build guarantees; live
names case-insensitively unique, as GitHub guarantees; debug off,
delete mode arbitrary), the second run issues zero create/edit/delete
calls, reports Skipped for every live label, and leaves the remote
state identical.  (With delete mode on and a priorName declared,
idempotence fails — see the counterexample.) -/
theorem sync_idempotent_without_priorName (st : SyncState) (R : List RemoteLabel)
    (hR : ∀ s ∈ st.labels, s.renamed = none)
    (hS : (st.labels.map (fun s => strLower s.name)).Nodup)
    (hnd : (R.map (fun M => strLower M.name)).Nodup)
    (hdbg : st.debug = false) :
    syncApiCalls st (remoteAfter st R) = [] ∧
    remoteAfter st (remoteAfter st R) = remoteAfter st R ∧
    ∀ o ∈ syncOutcomes st (remoteAfter st R), o = .skipped := by
  have hall : ∀ L' ∈ remoteAfter st R, processLabel st L' = ([], .skipped, [L'.name]) := by
    intro L' hL'
    rw [remoteAfter_eq hR hdbg hnd] at hL'
    rcases List.mem_append.mp hL' with h | h
    · obtain ⟨L, _, hstep⟩ := List.mem_filterMap.mp h
      exact step_then_skip hR hS hstep
    · obtain ⟨v, hv, rfl⟩ := List.mem_map.mp h
      exact processLabel_skip_of_spec hR hS (List.mem_filter.mp hv).1
  obtain ⟨hp1, hupd, houtc⟩ := processLabel_all_skip hall
  have hcreates : createApiCalls st (remoteAfter st R) = [] := by
    rw [createApiCalls, hdbg]
    simp only [Bool.false_eq_true, if_false]
    rw [List.map_eq_nil, List.filter_eq_nil]
    intro v hv
    have := spec_names_covered hR hdbg hnd v hv
    rw [hupd]
    simp only [decide_eq_true_eq, Decidable.not_not]
    exact this
  have hsync : syncApiCalls st (remoteAfter st R) = [] := by
    rw [syncApiCalls, hp1, hcreates]
    rfl
  refine ⟨hsync, ?_, ?_⟩
  · rw [remoteAfter, hsync]
    rfl
  · rw [houtc]
    intro o ho
    rcases List.mem_map.mp ho with ⟨_, _, rfl⟩
    rfl

/-- Witness for `sync_idempotent_without_priorName`: one spec `bug`
(no priorName) against a case-variant, wrong-colored live label
`Bug`; the first run edits it, the second run does nothing. -/
theorem sync_idempotent_without_priorName_witness :
    syncApiCalls ⟨[⟨"bug", none, "d73a4a", some "A bug"⟩], [], true, false⟩
      (remoteAfter ⟨[⟨"bug", none, "d73a4a", some "A bug"⟩], [], true, false⟩
        [⟨"Bug", "ffffff", "old"⟩]) = [] ∧
    remoteAfter ⟨[⟨"bug", none, "d73a4a", some "A bug"⟩], [], true, false⟩
      (remoteAfter ⟨[⟨"bug", none, "d73a4a", some "A bug"⟩], [], true, false⟩
        [⟨"Bug", "ffffff", "old"⟩]) =
      remoteAfter ⟨[⟨"bug", none, "d73a4a", some "A bug"⟩], [], true, false⟩
        [⟨"Bug", "ffffff", "old"⟩] ∧
    ∀ o ∈ syncOutcomes ⟨[⟨"bug", none, "d73a4a", some "A bug"⟩], [], true, false⟩
      (remoteAfter ⟨[⟨"bug", none, "d73a4a", some "A bug"⟩], [], true, false⟩
        [⟨"Bug", "ffffff", "old"⟩]), o = .skipped :=
  sync_idempotent_without_priorName
    ⟨[⟨"bug", none, "d73a4a", some "A bug"⟩], [], true, false⟩
    [⟨"Bug", "ffffff", "old"⟩] (by decide) (by decide) (by decide) rfl
